import Mathlib

/-!
Verification of the parallel quicksort in `src/quicksort_openmp.cpp`.

The array of C `int`s is modelled as a `List Int`; the cursor variables
`low`, `high`, `new_low`, `new_high` are modelled as `Int` because the
partition loop genuinely drives them one step outside the range
(`new_high` can end at `low - 1`, `new_low` at `high + 1`).

Every array access goes through `getI?`, which returns `none` on an
out-of-bounds index, and the `while` loops carry an explicit fuel
argument, `none` signalling that the fuel ran out.  A run that returns
`some` therefore performed no out-of-bounds access, and the theorems
below exhibit explicit fuel values for which the sort completes.

The two `#pragma omp task` recursive calls operate on disjoint index
ranges and are modelled as sequential calls in their textual order.
-/

namespace QuicksortOpenMP

/-- Read of `numbers[i]` with the C bounds discipline made explicit: an
out-of-bounds index yields `none`. -/
def getI? (numbers : List Int) (i : Int) : Option Int :=
  if h : 0 ≤ i ∧ i.toNat < numbers.length then some (numbers.get ⟨i.toNat, h.2⟩) else none

/-- Total read used in specification statements; agrees with `getI?` on
in-bounds indices and defaults to `0` elsewhere. -/
def geti (numbers : List Int) (i : Int) : Int :=
  (getI? numbers i).getD 0

/-- Write `numbers[i] = v`; out of range it leaves the list unchanged
(the C program never performs such a write in the verified runs). -/
def setI (numbers : List Int) (i : Int) (v : Int) : List Int :=
  if 0 ≤ i then numbers.set i.toNat v else numbers

/-- Embedding of the inner scan `while (numbers[new_low] < pivot) new_low++;`. -/
def upScan (numbers : List Int) (pivot : Int) : Nat → Int → Option Int
  | 0, _ => none
  | fuel + 1, i =>
    match getI? numbers i with
    | none => none
    | some v => if v < pivot then upScan numbers pivot fuel (i + 1) else some i

/-- Embedding of the inner scan `while (numbers[new_high] > pivot) new_high--;`. -/
def downScan (numbers : List Int) (pivot : Int) : Nat → Int → Option Int
  | 0, _ => none
  | fuel + 1, i =>
    match getI? numbers i with
    | none => none
    | some v => if v > pivot then downScan numbers pivot fuel (i - 1) else some i

/-- Embedding of the outer partition loop `while (new_low <= new_high) { ... }`
of `quickSort`, including the three-assignment swap.  `sf` is the fuel given to
each inner scan, `fuel` bounds the number of outer iterations.  On normal exit
it returns the array together with the final cursor pair `(new_low, new_high)`. -/
def partLoop (pivot : Int) (sf : Nat) : Nat → List Int → Int → Int → Option (List Int × Int × Int)
  | 0, _, _, _ => none
  | fuel + 1, numbers, new_low, new_high =>
    if new_low ≤ new_high then
      match upScan numbers pivot sf new_low with
      | none => none
      | some nl =>
        match downScan numbers pivot sf new_high with
        | none => none
        | some nh =>
          if nl ≤ nh then
            match getI? numbers nl, getI? numbers nh with
            | some vl, some vh =>
              partLoop pivot sf fuel (setI (setI numbers nl vh) nh vl) (nl + 1) (nh - 1)
            | _, _ => none
          else some (numbers, nl, nh)
    else some (numbers, new_low, new_high)

/-- Embedding of `quickSort(int* numbers, int low, int high)`.  The pivot is
`numbers[(high + low) / 2]` with C truncating division, the partition loop is
`partLoop`, and the two spawned recursive sorts are performed in order on the
disjoint ranges `[low, new_high]` and `[new_low, high]`. -/
def quickSort : Nat → List Int → Int → Int → Option (List Int)
  | 0, _, _, _ => none
  | fuel + 1, numbers, low, high =>
    if low ≥ high then some numbers
    else
      match getI? numbers (Int.tdiv (high + low) 2) with
      | none => none
      | some pivot =>
        match partLoop pivot (fuel + 1) (fuel + 1) numbers low high with
        | none => none
        | some (a1, new_low, new_high) =>
          match quickSort fuel a1 low new_high with
          | none => none
          | some a2 => quickSort fuel a2 new_low high

/-- Fuel that always suffices for `quickSort` on the range `[low, high]`. -/
def sortFuel (low high : Int) : Nat :=
  (high + 2 - low).toNat + 1

/-- Contents of the inclusive index range `[lo, hi]`, as a list. -/
def slice (a : List Int) (lo hi : Int) : List Int :=
  (a.drop lo.toNat).take (hi + 1 - lo).toNat

/-! ## Basic access lemmas -/

theorem getI?_eq_some {a : List Int} {i : Int} (h0 : 0 ≤ i) (h1 : i < (a.length : Int)) :
    getI? a i = some (geti a i) := by
  have h : 0 ≤ i ∧ i.toNat < a.length := ⟨h0, by omega⟩
  simp [getI?, geti, h]

theorem geti_eq_getElem {a : List Int} {i : Int} (h0 : 0 ≤ i) (h1 : i.toNat < a.length) :
    geti a i = a[i.toNat] := by
  have h : 0 ≤ i ∧ i.toNat < a.length := ⟨h0, h1⟩
  simp [geti, getI?, h, List.get_eq_getElem]

theorem length_setI (a : List Int) (i : Int) (v : Int) : (setI a i v).length = a.length := by
  unfold setI
  split <;> simp

theorem geti_setI_self {a : List Int} {i : Int} {v : Int} (h0 : 0 ≤ i)
    (h1 : i < (a.length : Int)) : geti (setI a i v) i = v := by
  have hn : i.toNat < a.length := by omega
  rw [setI, if_pos h0, geti_eq_getElem h0 (by simpa using hn)]
  exact List.getElem_set_self _

theorem geti_setI_ne {a : List Int} {i k : Int} {v : Int} (hne : k ≠ i) :
    geti (setI a i v) k = geti a k := by
  unfold setI
  split
  · rcases le_or_lt 0 k with hk | hk
    · by_cases hkn : k.toNat < a.length
      · rw [geti_eq_getElem hk (by simpa using hkn), geti_eq_getElem hk hkn]
        exact List.getElem_set_ne (by omega) _
      · have h1 : ¬ (0 ≤ k ∧ k.toNat < (a.set i.toNat v).length) := by
          simp only [List.length_set]; omega
        have h2 : ¬ (0 ≤ k ∧ k.toNat < a.length) := by omega
        simp [geti, getI?, h1, h2]
    · have h1 : ¬ (0 ≤ k ∧ k.toNat < (a.set i.toNat v).length) := by omega
      have h2 : ¬ (0 ≤ k ∧ k.toNat < a.length) := by omega
      simp [geti, getI?, h1, h2]
  · rfl

/-! ## Transposition lemmas: swapping two positions of a list is a permutation -/

theorem cons_set_perm : ∀ (t : List Int) (v : Nat) (x : Int), v < t.length →
    List.Perm (t.getD v 0 :: t.set v x) (x :: t) := by
  intro t
  induction t with
  | nil => intro v x hv; simp at hv
  | cons y s ih =>
    intro v x hv
    cases v with
    | zero => simpa using List.Perm.swap x y s
    | succ w =>
      have h1 : List.Perm ((y :: s).getD (w + 1) 0 :: (y :: s).set (w + 1) x)
          (y :: (s.getD w 0 :: s.set w x)) := by
        simpa using List.Perm.swap y (s.getD w 0) (s.set w x)
      have h2 := (ih w x (by simpa using hv)).cons y
      exact (h1.trans h2).trans (List.Perm.swap x y s)

theorem set_set_perm : ∀ (l : List Int) (u v : Nat), u ≤ v → v < l.length →
    List.Perm ((l.set u (l.getD v 0)).set v (l.getD u 0)) l := by
  intro l
  induction l with
  | nil => intro u v _ hv; simp at hv
  | cons y s ih =>
    intro u v huv hv
    cases u with
    | zero =>
      cases v with
      | zero => simp
      | succ w => simpa using cons_set_perm s w y (by simpa using hv)
    | succ u' =>
      cases v with
      | zero => omega
      | succ w => simpa using (ih u' w (by omega) (by simpa using hv)).cons y

/-! ## Slice lemmas -/

theorem slice_length {a : List Int} {lo hi : Int} (h0 : 0 ≤ lo) (hh : hi < (a.length : Int)) :
    (slice a lo hi).length = (hi + 1 - lo).toNat := by
  simp only [slice, List.length_take, List.length_drop]
  omega

theorem slice_getElem {a : List Int} {lo hi : Int} {m : Nat} (hm : m < (slice a lo hi).length)
    (hb : lo.toNat + m < a.length) :
    (slice a lo hi)[m] = a[lo.toNat + m] := by
  simp only [slice] at hm ⊢
  rw [List.getElem_take, List.getElem_drop]

theorem slice_geti {a : List Int} {lo hi : Int} (h0 : 0 ≤ lo) (hh : hi < (a.length : Int))
    {m : Nat} (hm : m < (slice a lo hi).length) :
    (slice a lo hi)[m] = geti a (lo + m) := by
  have hlen := slice_length (a := a) h0 hh
  have hb : lo.toNat + m < a.length := by omega
  have hidx : (lo + (m : Int)).toNat = lo.toNat + m := by omega
  rw [slice_getElem hm hb, geti_eq_getElem (by omega) (by omega)]
  simp only [hidx]

theorem slice_congr {a b : List Int} {lo hi : Int} (hlen : b.length = a.length)
    (h0 : 0 ≤ lo) (hh : hi < (a.length : Int))
    (h : ∀ k, lo ≤ k → k ≤ hi → geti b k = geti a k) :
    slice b lo hi = slice a lo hi := by
  have hh' : hi < (b.length : Int) := by omega
  apply List.ext_getElem
  · rw [slice_length h0 hh, slice_length h0 hh']
  intro n h1 h2
  rw [slice_geti h0 hh' h1, slice_geti h0 hh h2]
  have hn : n < (hi + 1 - lo).toNat := by rw [slice_length h0 hh'] at h1; omega
  exact h _ (by omega) (by omega)

theorem mem_slice {a : List Int} {lo hi : Int} (h0 : 0 ≤ lo) (hh : hi < (a.length : Int))
    {x : Int} : x ∈ slice a lo hi ↔ ∃ k, lo ≤ k ∧ k ≤ hi ∧ geti a k = x := by
  rw [List.mem_iff_getElem]
  constructor
  · rintro ⟨n, hn, hx⟩
    have hn' : n < (hi + 1 - lo).toNat := by rw [slice_length h0 hh] at hn; omega
    exact ⟨lo + n, by omega, by omega, by rw [← slice_geti h0 hh hn]; exact hx⟩
  · rintro ⟨k, hk1, hk2, hx⟩
    refine ⟨(k - lo).toNat, by rw [slice_length h0 hh]; omega, ?_⟩
    rw [slice_geti h0 hh, show lo + (((k - lo).toNat : Nat) : Int) = k by omega]
    exact hx

theorem slice_append {a : List Int} {lo m hi : Int} (h0 : 0 ≤ lo) (h1 : lo ≤ m + 1)
    (h2 : m ≤ hi) : slice a lo hi = slice a lo m ++ slice a (m + 1) hi := by
  simp only [slice]
  rw [show (hi + 1 - lo).toNat = (m + 1 - lo).toNat + (hi + 1 - (m + 1)).toNat by omega]
  rw [List.take_add, List.drop_drop]
  rw [show lo.toNat + (m + 1 - lo).toNat = (m + 1).toNat by omega]

theorem slice_swap_eq {a : List Int} {low high nl nh : Int}
    (h1 : 0 ≤ low) (h2 : low ≤ nl) (h3 : nl ≤ nh) (h4 : nh ≤ high)
    (h5 : high < (a.length : Int)) :
    slice (setI (setI a nl (geti a nh)) nh (geti a nl)) low high
      = ((slice a low high).set (nl - low).toNat (geti a nh)).set (nh - low).toNat (geti a nl) := by
  have hlen2 : (setI (setI a nl (geti a nh)) nh (geti a nl)).length = a.length := by
    rw [length_setI, length_setI]
  have h5' : high < ((setI (setI a nl (geti a nh)) nh (geti a nl)).length : Int) := by
    rw [hlen2]; exact h5
  apply List.ext_getElem
  · rw [slice_length h1 h5']
    simp only [List.length_set]
    rw [slice_length h1 h5]
  intro n hA hB
  rw [slice_geti h1 h5' hA]
  have hn : n < (high + 1 - low).toNat := by rw [slice_length h1 h5'] at hA; omega
  by_cases hv : (nh - low).toNat = n
  · subst hv
    rw [List.getElem_set_self]
    rw [show low + (((nh - low).toNat : Nat) : Int) = nh by omega]
    rw [geti_setI_self (by omega) (by rw [length_setI]; omega)]
  · rw [List.getElem_set_ne hv]
    by_cases hu : (nl - low).toNat = n
    · subst hu
      rw [List.getElem_set_self]
      rw [show low + (((nl - low).toNat : Nat) : Int) = nl by omega]
      have hnlh : nl ≠ nh := fun h => hv (by rw [h])
      rw [geti_setI_ne hnlh, geti_setI_self (by omega) (by omega)]
    · have hB' : n < (slice a low high).length := by
        simp only [List.length_set] at hB; exact hB
      rw [List.getElem_set_ne hu, slice_geti h1 h5 hB']
      have hkv : low + (n : Int) ≠ nh := fun h => hv (by omega)
      have hku : low + (n : Int) ≠ nl := fun h => hu (by omega)
      rw [geti_setI_ne hkv, geti_setI_ne hku]

theorem slice_swap_perm {a : List Int} {low high nl nh : Int}
    (h1 : 0 ≤ low) (h2 : low ≤ nl) (h3 : nl ≤ nh) (h4 : nh ≤ high)
    (h5 : high < (a.length : Int)) :
    List.Perm (slice (setI (setI a nl (geti a nh)) nh (geti a nl)) low high)
      (slice a low high) := by
  rw [slice_swap_eq h1 h2 h3 h4 h5]
  have hv : (nh - low).toNat < (slice a low high).length := by
    rw [slice_length h1 h5]; omega
  have hu : (nl - low).toNat < (slice a low high).length := by
    rw [slice_length h1 h5]; omega
  have hgu : (slice a low high).getD (nl - low).toNat 0 = geti a nl := by
    rw [List.getD_eq_getElem _ _ hu, slice_geti h1 h5 hu]
    rw [show low + (((nl - low).toNat : Nat) : Int) = nl by omega]
  have hgv : (slice a low high).getD (nh - low).toNat 0 = geti a nh := by
    rw [List.getD_eq_getElem _ _ hv, slice_geti h1 h5 hv]
    rw [show low + (((nh - low).toNat : Nat) : Int) = nh by omega]
  rw [← hgu, ← hgv]
  exact set_set_perm _ _ _ (by omega) hv

theorem slice_perm_mono {a b : List Int} {low high lo hi : Int}
    (hlen : b.length = a.length) (h0 : 0 ≤ low) (hh : high < (a.length : Int))
    (hlo : low ≤ lo) (hmid : lo ≤ hi + 1) (hhi : hi ≤ high)
    (hperm : List.Perm (slice b lo hi) (slice a lo hi))
    (hframe : ∀ k, k < lo ∨ hi < k → geti b k = geti a k) :
    List.Perm (slice b low high) (slice a low high) := by
  have e1b : slice b low high = slice b low (lo - 1) ++ slice b (lo - 1 + 1) high :=
    slice_append h0 (by omega) (by omega)
  have e1a : slice a low high = slice a low (lo - 1) ++ slice a (lo - 1 + 1) high :=
    slice_append h0 (by omega) (by omega)
  rw [show lo - 1 + 1 = lo by ring] at e1b e1a
  have e2b : slice b lo high = slice b lo hi ++ slice b (hi + 1) high :=
    slice_append (by omega) hmid hhi
  have e2a : slice a lo high = slice a lo hi ++ slice a (hi + 1) high :=
    slice_append (by omega) hmid hhi
  have c1 : slice b low (lo - 1) = slice a low (lo - 1) :=
    slice_congr hlen h0 (by omega) (fun k hk1 hk2 => hframe k (Or.inl (by omega)))
  have c2 : slice b (hi + 1) high = slice a (hi + 1) high :=
    slice_congr hlen (by omega) hh (fun k hk1 hk2 => hframe k (Or.inr (by omega)))
  rw [e1b, e1a, e2b, e2a, c1, c2]
  exact List.Perm.append (List.Perm.refl _) (List.Perm.append hperm (List.Perm.refl _))

/-! ## Scan specifications -/

theorem upScan_spec {a : List Int} {p : Int} :
    ∀ (sf : Nat) (i s : Int), 0 ≤ i → i ≤ s → s < (a.length : Int) → p ≤ geti a s →
    (s + 1 - i).toNat ≤ sf →
    ∃ nl, upScan a p sf i = some nl ∧ i ≤ nl ∧ nl ≤ s ∧ p ≤ geti a nl ∧
      ∀ k, i ≤ k → k < nl → geti a k < p := by
  intro sf
  induction sf with
  | zero => intro i s h0 his hs hps hf; omega
  | succ f ih =>
    intro i s h0 his hs hps hf
    have hb : i < (a.length : Int) := by omega
    have key : upScan a p (f + 1) i
        = if geti a i < p then upScan a p f (i + 1) else some i := by
      rw [upScan, getI?_eq_some h0 hb]
    by_cases hlt : geti a i < p
    · rw [if_pos hlt] at key
      have hisne : i ≠ s := fun h => absurd hps (by rw [← h]; omega)
      obtain ⟨nl, heq, h1, h2, h3, h4⟩ := ih (i + 1) s (by omega) (by omega) hs hps (by omega)
      refine ⟨nl, by rw [key]; exact heq, by omega, h2, h3, fun k hk1 hk2 => ?_⟩
      rcases eq_or_lt_of_le hk1 with hk | hk
      · rw [← hk]; exact hlt
      · exact h4 k (by omega) hk2
    · rw [if_neg hlt] at key
      exact ⟨i, key, le_refl i, his, by omega, fun k hk1 hk2 => by omega⟩

theorem downScan_spec {a : List Int} {p : Int} :
    ∀ (sf : Nat) (j t : Int), 0 ≤ t → t ≤ j → j < (a.length : Int) → geti a t ≤ p →
    (j + 1 - t).toNat ≤ sf →
    ∃ nh, downScan a p sf j = some nh ∧ t ≤ nh ∧ nh ≤ j ∧ geti a nh ≤ p ∧
      ∀ k, nh < k → k ≤ j → p < geti a k := by
  intro sf
  induction sf with
  | zero => intro j t h0 htj hj hpt hf; omega
  | succ f ih =>
    intro j t h0 htj hj hpt hf
    have hb : 0 ≤ j := by omega
    have key : downScan a p (f + 1) j
        = if geti a j > p then downScan a p f (j - 1) else some j := by
      rw [downScan, getI?_eq_some hb hj]
    by_cases hgt : geti a j > p
    · rw [if_pos hgt] at key
      have hjtne : j ≠ t := fun h => absurd hpt (by rw [← h]; omega)
      obtain ⟨nh, heq, h1, h2, h3, h4⟩ :=
        ih (j - 1) t h0 (by omega) (by omega) hpt (by omega)
      refine ⟨nh, by rw [key]; exact heq, h1, by omega, h3, fun k hk1 hk2 => ?_⟩
      rcases eq_or_lt_of_le hk2 with hk | hk
      · rw [hk]; exact hgt
      · exact h4 k hk1 (by omega)
    · rw [if_neg hgt] at key
      exact ⟨j, key, htj, le_refl j, by omega, fun k hk1 hk2 => by omega⟩

/-! ## Partition loop invariant -/

theorem partLoop_go {p : Int} {len : Nat} {low high : Int} {sf : Nat}
    (hlow : 0 ≤ low) (hhigh : high < (len : Int)) (hsf : (high + 1 - low).toNat ≤ sf) :
    ∀ (fuel : Nat) (a : List Int) (i j : Int), a.length = len →
    low ≤ i → j ≤ high → i ≤ high + 1 → low - 1 ≤ j → i ≤ j + 2 →
    (∀ k, low ≤ k → k < i → geti a k ≤ p) →
    (∀ k, j < k → k ≤ high → p ≤ geti a k) →
    (i ≤ j → ∃ s, i ≤ s ∧ s ≤ high ∧ p ≤ geti a s) →
    (i ≤ j → ∃ t, low ≤ t ∧ t ≤ j ∧ geti a t ≤ p) →
    (j + 2 - i).toNat < fuel →
    ∃ a2 nl nh, partLoop p sf fuel a i j = some (a2, nl, nh)
      ∧ a2.length = len
      ∧ (∀ k, k < low ∨ high < k → geti a2 k = geti a k)
      ∧ List.Perm (slice a2 low high) (slice a low high)
      ∧ i ≤ nl ∧ nh ≤ j ∧ nh < nl ∧ nl ≤ nh + 2 ∧ nl ≤ high + 1 ∧ low - 1 ≤ nh
      ∧ (∀ k, low ≤ k → k < nl → geti a2 k ≤ p)
      ∧ (∀ k, nh < k → k ≤ high → p ≤ geti a2 k)
      ∧ (∀ m, i ≤ m → m ≤ j → geti a m = p → i + 1 ≤ nl ∧ nh ≤ j - 1) := by
  intro fuel
  induction fuel with
  | zero => intro a i j _ _ _ _ _ _ _ _ _ _ hf; omega
  | succ f ih =>
    intro a i j hlen hi1 hj1 hi2 hj2 hij hpre hsuf hs ht hf
    by_cases hcond : i ≤ j
    · obtain ⟨s, hs1, hs2, hs3⟩ := hs hcond
      obtain ⟨t, ht1, ht2, ht3⟩ := ht hcond
      obtain ⟨nl, hup, hnl1, hnl2, hnl3, hnl4⟩ :=
        upScan_spec sf i s (by omega) hs1 (by omega) hs3 (by omega)
      obtain ⟨nh, hdown, hnh1, hnh2, hnh3, hnh4⟩ :=
        downScan_spec sf j t (by omega) ht2 (by omega) ht3 (by omega)
      by_cases hswap : nl ≤ nh
      · -- swap branch: exchange a[nl] and a[nh], continue with (nl+1, nh-1)
        have hgl := getI?_eq_some (show (0:Int) ≤ nl by omega)
          (show nl < (a.length : Int) by omega)
        have hgh := getI?_eq_some (show (0:Int) ≤ nh by omega)
          (show nh < (a.length : Int) by omega)
        have hEq : partLoop p sf (f + 1) a i j
            = partLoop p sf f (setI (setI a nl (geti a nh)) nh (geti a nl))
                (nl + 1) (nh - 1) := by
          rw [partLoop, if_pos hcond]
          simp only [hup, hdown]
          rw [if_pos hswap]
          simp only [hgl, hgh]
        have hlen1 : (setI (setI a nl (geti a nh)) nh (geti a nl)).length = len := by
          rw [length_setI, length_setI, hlen]
        have hg1 : ∀ k, k ≠ nl → k ≠ nh →
            geti (setI (setI a nl (geti a nh)) nh (geti a nl)) k = geti a k :=
          fun k hk1 hk2 => by rw [geti_setI_ne hk2, geti_setI_ne hk1]
        have hg1h : geti (setI (setI a nl (geti a nh)) nh (geti a nl)) nh = geti a nl :=
          geti_setI_self (by omega) (by rw [length_setI]; omega)
        have hg1l : geti (setI (setI a nl (geti a nh)) nh (geti a nl)) nl = geti a nh := by
          by_cases he : nl = nh
          · subst he; exact hg1h
          · rw [geti_setI_ne he, geti_setI_self (by omega) (by omega)]
        have hperm1 : List.Perm
            (slice (setI (setI a nl (geti a nh)) nh (geti a nl)) low high)
            (slice a low high) :=
          slice_swap_perm hlow (by omega) hswap (by omega) (by omega)
        have pre1 : ∀ k, low ≤ k → k < nl + 1 →
            geti (setI (setI a nl (geti a nh)) nh (geti a nl)) k ≤ p := by
          intro k hk1 hk2
          by_cases hk : k = nl
          · rw [hk, hg1l]; exact hnh3
          · have hkh : k ≠ nh := by omega
            rw [hg1 k hk hkh]
            rcases lt_or_le k i with hki | hki
            · exact hpre k hk1 hki
            · exact le_of_lt (hnl4 k hki (by omega))
        have suf1 : ∀ k, nh - 1 < k → k ≤ high →
            p ≤ geti (setI (setI a nl (geti a nh)) nh (geti a nl)) k := by
          intro k hk1 hk2
          by_cases hk : k = nh
          · rw [hk, hg1h]; exact hnl3
          · have hkl : k ≠ nl := by omega
            rw [hg1 k hkl hk]
            rcases le_or_lt k j with hkj | hkj
            · exact le_of_lt (hnh4 k (by omega) hkj)
            · exact hsuf k hkj hk2
        obtain ⟨a2, nl2, nh2, heq2, hlen2, hframe2, hperm2, hb1, hb2, hb3, hb4, hb5, hb6,
            pre2, suf2, _⟩ :=
          ih (setI (setI a nl (geti a nh)) nh (geti a nl)) (nl + 1) (nh - 1)
            hlen1 (by omega) (by omega) (by omega) (by omega) (by omega) pre1 suf1
            (fun hc => ⟨nh, by omega, by omega, by rw [hg1h]; exact hnl3⟩)
            (fun hc => ⟨nl, by omega, by omega, by rw [hg1l]; exact hnh3⟩)
            (by omega)
        refine ⟨a2, nl2, nh2, by rw [hEq]; exact heq2, hlen2, ?_, hperm2.trans hperm1,
          by omega, by omega, hb3, hb4, hb5, hb6, pre2, suf2,
          fun m hm1 hm2 hm3 => ⟨by omega, by omega⟩⟩
        intro k hk
        rw [hframe2 k hk, hg1 k (by omega) (by omega)]
      · -- the cursors crossed without a swap: the loop exits with (nl, nh)
        have hnlb : nl ≤ nh + 2 := by
          by_contra hcon
          push_neg at hcon
          rcases le_or_lt i (nh + 1) with hcase | hcase
          · have h1 : geti a (nh + 1) < p := hnl4 _ hcase (by omega)
            rcases le_or_lt (nh + 1) j with hc2 | hc2
            · exact absurd (hnh4 _ (by omega) hc2) (by omega)
            · rcases le_or_lt (nh + 1) high with hc3 | hc3
              · exact absurd (hsuf _ (by omega) hc3) (by omega)
              · omega
          · rcases eq_or_lt_of_le hi1 with hclow | hclow
            · omega
            · have h1 : geti a (i - 1) ≤ p := hpre (i - 1) (by omega) (by omega)
              exact absurd (hnh4 (i - 1) (by omega) (by omega)) (by omega)
        refine ⟨a, nl, nh, ?_, hlen, fun k _ => rfl, List.Perm.refl _, hnl1, hnh2,
          by omega, hnlb, by omega, by omega, ?_, ?_, ?_⟩
        · rw [partLoop, if_pos hcond]
          simp only [hup, hdown]
          rw [if_neg hswap]
        · intro k hk1 hk2
          rcases lt_or_le k i with hki | hki
          · exact hpre k hk1 hki
          · exact le_of_lt (hnl4 k hki hk2)
        · intro k hk1 hk2
          rcases le_or_lt k j with hkj | hkj
          · exact le_of_lt (hnh4 k hk1 hkj)
          · exact hsuf k hkj hk2
        · intro m hm1 hm2 hm3
          obtain ⟨nl', hup', hq1, hq2, _, _⟩ :=
            upScan_spec sf i m (by omega) hm1 (by omega) (le_of_eq hm3.symm) (by omega)
          obtain ⟨nh', hdown', hq3, hq4, _, _⟩ :=
            downScan_spec sf j m (by omega) hm2 (by omega) (le_of_eq hm3) (by omega)
          rw [hup] at hup'
          rw [hdown] at hdown'
          have e1 : nl = nl' := Option.some.inj hup'
          have e2 : nh = nh' := Option.some.inj hdown'
          omega
    · refine ⟨a, i, j, ?_, hlen, fun k _ => rfl, List.Perm.refl _, le_refl i, le_refl j,
        by omega, by omega, hi2, hj2, hpre, hsuf, fun m hm1 hm2 _ => by omega⟩
      rw [partLoop, if_neg hcond]

/-- Entry-point form of the partition-loop invariant: starting from
`(low, high)` with a pivot value that occurs at some position `m` of the range,
the loop succeeds and both resulting sub-ranges are strictly shorter. -/
theorem partLoop_entry {p : Int} {len : Nat} {a : List Int} {low high : Int}
    (m : Int) (sf fl : Nat)
    (hlen : a.length = len) (hlow : 0 ≤ low) (hlh : low ≤ high) (hhigh : high < (len : Int))
    (hm1 : low ≤ m) (hm2 : m ≤ high) (hm3 : geti a m = p)
    (hsf : (high + 1 - low).toNat ≤ sf) (hfl : (high + 2 - low).toNat < fl) :
    ∃ a2 nl nh, partLoop p sf fl a low high = some (a2, nl, nh)
      ∧ a2.length = len
      ∧ (∀ k, k < low ∨ high < k → geti a2 k = geti a k)
      ∧ List.Perm (slice a2 low high) (slice a low high)
      ∧ low + 1 ≤ nl ∧ nh ≤ high - 1 ∧ nh < nl ∧ nl ≤ nh + 2 ∧ nl ≤ high + 1 ∧ low - 1 ≤ nh
      ∧ (∀ k, low ≤ k → k < nl → geti a2 k ≤ p)
      ∧ (∀ k, nh < k → k ≤ high → p ≤ geti a2 k) := by
  obtain ⟨a2, nl, nh, heq, h1, h2, h3, h4, h5, h6, h7, h8, h9, h10, h11, hstop⟩ :=
    partLoop_go hlow hhigh hsf fl a low high hlen (le_refl low) (le_refl high)
      (by omega) (by omega) (by omega)
      (fun k hk1 hk2 => by omega)
      (fun k hk1 hk2 => by omega)
      (fun _ => ⟨m, hm1, hm2, le_of_eq hm3.symm⟩)
      (fun _ => ⟨m, hm1, hm2, le_of_eq hm3⟩)
      hfl
  obtain ⟨hstrict1, hstrict2⟩ := hstop m hm1 hm2 hm3
  exact ⟨a2, nl, nh, heq, h1, h2, h3, by omega, by omega, h6, h7, h8, h9, h10, h11⟩

/-! ## Full correctness of quickSort -/

theorem quickSort_go {len : Nat} :
    ∀ (fuel : Nat) (a : List Int) (low high : Int), a.length = len →
    0 ≤ low → high < (len : Int) → (high + 2 - low).toNat < fuel →
    ∃ a2, quickSort fuel a low high = some a2
      ∧ a2.length = len
      ∧ (∀ k, k < low ∨ high < k → geti a2 k = geti a k)
      ∧ List.Perm (slice a2 low high) (slice a low high)
      ∧ (∀ k, low ≤ k → k < high → geti a2 k ≤ geti a2 (k + 1)) := by
  intro fuel
  induction fuel with
  | zero => intro a low high _ _ _ hf; omega
  | succ f ih =>
    intro a low high hlen hlow hhigh hf
    by_cases hbase : low ≥ high
    · refine ⟨a, ?_, hlen, fun k _ => rfl, List.Perm.refl _, fun k hk1 hk2 => by omega⟩
      rw [quickSort, if_pos hbase]
    · push_neg at hbase
      have hmid : Int.tdiv (high + low) 2 = (high + low) / 2 :=
        Int.tdiv_eq_ediv (by omega) (by omega)
      have hmb1 : low ≤ Int.tdiv (high + low) 2 := by rw [hmid]; omega
      have hmb2 : Int.tdiv (high + low) 2 ≤ high := by rw [hmid]; omega
      have hpv := getI?_eq_some (show (0:Int) ≤ Int.tdiv (high + low) 2 by omega)
        (show Int.tdiv (high + low) 2 < (a.length : Int) by omega)
      obtain ⟨a1, nl, nh, hpeq, hlen1, hframe1, hperm1, hs1, hs2, hs3, hs4, hs5, hs6,
          pre1, suf1⟩ :=
        partLoop_entry (Int.tdiv (high + low) 2) (f + 1) (f + 1)
          hlen hlow (by omega) hhigh hmb1 hmb2 rfl (by omega) (by omega)
      obtain ⟨a2, heq2, hlen2, hframe2, hperm2, hsort2⟩ :=
        ih a1 low nh hlen1 hlow (by omega) (by omega)
      obtain ⟨a3, heq3, hlen3, hframe3, hperm3, hsort3⟩ :=
        ih a2 nl high hlen2 (by omega) hhigh (by omega)
      have hEq : quickSort (f + 1) a low high = quickSort f a2 nl high := by
        rw [quickSort, if_neg (by omega : ¬ low ≥ high)]
        simp only [hpv, hpeq, heq2]
      set p := geti a (Int.tdiv (high + low) 2) with hpdef
      have hA : ∀ k, low ≤ k → k ≤ nh → geti a3 k ≤ p := by
        intro k hk1 hk2
        rw [hframe3 k (by omega)]
        have hmem : geti a2 k ∈ slice a2 low nh :=
          (mem_slice hlow (by omega)).mpr ⟨k, hk1, hk2, rfl⟩
        have hmem1 : geti a2 k ∈ slice a1 low nh := hperm2.mem_iff.mp hmem
        obtain ⟨q, hq1, hq2, hval⟩ := (mem_slice hlow (by omega)).mp hmem1
        exact hval ▸ pre1 q hq1 (by omega)
      have hC : ∀ k, nl ≤ k → k ≤ high → p ≤ geti a3 k := by
        intro k hk1 hk2
        have hcongr : slice a2 nl high = slice a1 nl high :=
          slice_congr (by omega) (by omega) (by omega)
            (fun q hq1 hq2 => hframe2 q (Or.inr (by omega)))
        have hmem : geti a3 k ∈ slice a3 nl high :=
          (mem_slice (by omega) (by omega)).mpr ⟨k, hk1, hk2, rfl⟩
        have hmem1 : geti a3 k ∈ slice a1 nl high := by
          have hm := hperm3.mem_iff.mp hmem
          rwa [hcongr] at hm
        obtain ⟨q, hq1, hq2, hval⟩ := (mem_slice (by omega) (by omega)).mp hmem1
        exact hval ▸ suf1 q (by omega) hq2
      have hB : ∀ k, nh < k → k < nl → geti a3 k = p := by
        intro k hk1 hk2
        rw [hframe3 k (Or.inl hk2), hframe2 k (Or.inr hk1)]
        exact le_antisymm (pre1 k (by omega) hk2) (suf1 k hk1 (by omega))
      have hD : ∀ k, low ≤ k → k < nh → geti a3 k ≤ geti a3 (k + 1) := by
        intro k hk1 hk2
        rw [hframe3 k (Or.inl (by omega)), hframe3 (k + 1) (Or.inl (by omega))]
        exact hsort2 k hk1 hk2
      refine ⟨a3, by rw [hEq]; exact heq3, hlen3, ?_, ?_, ?_⟩
      · intro k hk
        rw [hframe3 k (by omega), hframe2 k (by omega), hframe1 k hk]
      · have hp3 : List.Perm (slice a3 low high) (slice a2 low high) :=
          slice_perm_mono (by omega) hlow (by omega) (by omega) hs5 (le_refl high)
            hperm3 hframe3
        have hp2 : List.Perm (slice a2 low high) (slice a1 low high) :=
          slice_perm_mono (by omega) hlow (by omega) (le_refl low) (by omega) (by omega)
            hperm2 hframe2
        exact (hp3.trans hp2).trans hperm1
      · intro k hk1 hk2
        rcases lt_or_le k nh with hc | hc
        · exact hD k hk1 hc
        rcases le_or_lt nl k with hc2 | hc2
        · exact hsort3 k hc2 hk2
        rcases eq_or_lt_of_le hc with hke | hke
        · have h1 : geti a3 k ≤ p := hA k hk1 (by omega)
          rcases lt_or_le (k + 1) nl with hc3 | hc3
          · rw [hB (k + 1) (by omega) hc3]; exact h1
          · exact le_trans h1 (hC (k + 1) (by omega) (by omega))
        · have h1 : geti a3 k = p := hB k hke hc2
          rcases lt_or_le (k + 1) nl with hc3 | hc3
          · rw [h1, hB (k + 1) (by omega) hc3]
          · rw [h1]; exact hC (k + 1) hc3 (by omega)

/-! ## Sorted ranges as sorted lists, and identity on sorted input -/

theorem geti_coe {a : List Int} {n : Nat} (h : n < a.length) : geti a (n : Int) = a[n] := by
  have hg := geti_eq_getElem (show (0:Int) ≤ (n : Int) by omega)
    (show ((n : Int)).toNat < a.length by simpa using h)
  simpa using hg

theorem geti_mono_of_adj {a : List Int} {lo hi : Int}
    (hadj : ∀ k, lo ≤ k → k < hi → geti a k ≤ geti a (k + 1)) :
    ∀ (d : Nat) (k : Int), lo ≤ k → k + d ≤ hi → geti a k ≤ geti a (k + d) := by
  intro d
  induction d with
  | zero => intro k _ _; simp
  | succ n ihn =>
    intro k hk1 hk2
    have h1 : geti a k ≤ geti a (k + n) := ihn k hk1 (by push_cast at hk2 ⊢; omega)
    have h2 : geti a (k + n) ≤ geti a (k + n + 1) :=
      hadj (k + n) (by omega) (by push_cast at hk2 ⊢; omega)
    have he : k + ((n + 1 : Nat) : Int) = k + n + 1 := by push_cast; ring
    rw [he]
    exact le_trans h1 h2

theorem sorted_slice {a : List Int} {lo hi : Int} (h0 : 0 ≤ lo) (hh : hi < (a.length : Int))
    (hadj : ∀ k, lo ≤ k → k < hi → geti a k ≤ geti a (k + 1)) :
    List.Sorted (· ≤ ·) (slice a lo hi) := by
  apply List.pairwise_iff_getElem.mpr
  intro u v hu hv huv
  have hlen := slice_length (a := a) h0 hh
  rw [slice_geti h0 hh hu, slice_geti h0 hh hv]
  have hm := geti_mono_of_adj hadj (v - u) (lo + u) (by omega)
    (by omega)
  have he : lo + (u : Int) + ((v - u : Nat) : Int) = lo + (v : Int) := by omega
  rw [he] at hm
  exact hm

theorem eq_of_frame_slice {a b : List Int} {lo hi : Int} (hlen : b.length = a.length)
    (h0 : 0 ≤ lo) (hh : hi < (a.length : Int))
    (hframe : ∀ k, k < lo ∨ hi < k → geti b k = geti a k)
    (hslice : slice b lo hi = slice a lo hi) : b = a := by
  apply List.ext_getElem hlen
  intro n h1 h2
  by_cases hn : lo ≤ (n : Int) ∧ (n : Int) ≤ hi
  · have hm : ((n : Int) - lo).toNat < (slice b lo hi).length := by
      rw [slice_length h0 (show hi < (b.length : Int) by omega)]
      omega
    have hmA : ((n : Int) - lo).toNat < (slice a lo hi).length := by
      rw [slice_length h0 hh]
      omega
    have hb := slice_geti (a := b) h0 (show hi < (b.length : Int) by omega) hm
    have ha := slice_geti (a := a) h0 hh hmA
    have hx : lo + ((((n : Int) - lo).toNat : Nat) : Int) = (n : Int) := by omega
    rw [← geti_coe h1, ← geti_coe h2, ← hx, ← hb, ← ha]
    simp only [hslice]
  · rw [← geti_coe h1, ← geti_coe h2]
    exact hframe n (by omega)

/-! ## Claim theorems -/

/-- C1: for every integer array and every range with `0 ≤ low` and
`high ≤ n - 1`, after `quickSort numbers low high` completes (here: returns
`some` with sufficient fuel), the elements at indices `low..high` are in
non-decreasing order: `numbers[i] ≤ numbers[i+1]` for every
`low ≤ i < high`. -/
theorem quickSort_sorts (a : List Int) (low high : Int) (fuel : Nat)
    (h1 : 0 ≤ low) (h2 : high < (a.length : Int)) (h3 : (high + 2 - low).toNat < fuel) :
    ∃ a2, quickSort fuel a low high = some a2 ∧
      ∀ i, low ≤ i → i < high → geti a2 i ≤ geti a2 (i + 1) := by
  obtain ⟨a2, heq, _, _, _, hsort⟩ := quickSort_go fuel a low high rfl h1 h2 h3
  exact ⟨a2, heq, hsort⟩

theorem quickSort_sorts_witness :
    (0 : Int) ≤ 0 ∧ (5 : Int) < (([5, 3, 8, 1, 9, 2] : List Int).length : Int) ∧
    ((5 : Int) + 2 - 0).toNat < 8 ∧
    ∃ a2, quickSort 8 [5, 3, 8, 1, 9, 2] 0 5 = some a2 ∧
      ∀ i, (0 : Int) ≤ i → i < 5 → geti a2 i ≤ geti a2 (i + 1) :=
  ⟨by decide, by decide, by decide,
    quickSort_sorts [5, 3, 8, 1, 9, 2] 0 5 8 (by decide) (by decide) (by decide)⟩

/-- C2: for every integer array and every valid range, the multiset of values
at indices `low..high` after `quickSort` equals the multiset of values at
those indices before the call — the result is a permutation of the original
range contents. -/
theorem quickSort_perm (a : List Int) (low high : Int) (fuel : Nat)
    (h1 : 0 ≤ low) (h2 : high < (a.length : Int)) (h3 : (high + 2 - low).toNat < fuel) :
    ∃ a2, quickSort fuel a low high = some a2 ∧
      List.Perm (slice a2 low high) (slice a low high) := by
  obtain ⟨a2, heq, _, _, hperm, _⟩ := quickSort_go fuel a low high rfl h1 h2 h3
  exact ⟨a2, heq, hperm⟩

theorem quickSort_perm_witness :
    (0 : Int) ≤ 0 ∧ (4 : Int) < (([4, 2, 4, 1, 4] : List Int).length : Int) ∧
    ((4 : Int) + 2 - 0).toNat < 7 ∧
    ∃ a2, quickSort 7 [4, 2, 4, 1, 4] 0 4 = some a2 ∧
      List.Perm (slice a2 0 4) (slice [4, 2, 4, 1, 4] 0 4) :=
  ⟨by decide, by decide, by decide,
    quickSort_perm [4, 2, 4, 1, 4] 0 4 7 (by decide) (by decide) (by decide)⟩

/-- C3: for every array and range with `0 ≤ low ≤ high ≤ n - 1`, when the
partition loop of `quickSort` terminates with cursors `(new_low, new_high)`,
with `pivot` the value `numbers[(low+high)/2]` read at entry: every element at
an index in `[low, new_high]` is `≤ pivot`, every element at an index in
`[new_low, high]` is `≥ pivot`, and the contents of `[low, high]` are a
permutation of the contents at entry. -/
theorem partLoop_partitions (a : List Int) (low high : Int) (sf fl : Nat)
    (h1 : 0 ≤ low) (h2 : low ≤ high) (h3 : high < (a.length : Int))
    (hsf : (high + 1 - low).toNat ≤ sf) (hfl : (high + 2 - low).toNat < fl) :
    ∃ a2 nl nh,
      partLoop (geti a (Int.tdiv (high + low) 2)) sf fl a low high = some (a2, nl, nh)
      ∧ (∀ k, low ≤ k → k ≤ nh → geti a2 k ≤ geti a (Int.tdiv (high + low) 2))
      ∧ (∀ k, nl ≤ k → k ≤ high → geti a (Int.tdiv (high + low) 2) ≤ geti a2 k)
      ∧ List.Perm (slice a2 low high) (slice a low high) := by
  have hmid : Int.tdiv (high + low) 2 = (high + low) / 2 :=
    Int.tdiv_eq_ediv (by omega) (by omega)
  obtain ⟨a2, nl, nh, heq, _, _, hperm, hs1, hs2, hs3, hs4, hs5, hs6, pre1, suf1⟩ :=
    partLoop_entry (Int.tdiv (high + low) 2) sf fl rfl h1 h2 h3
      (by rw [hmid]; omega) (by rw [hmid]; omega) rfl hsf hfl
  exact ⟨a2, nl, nh, heq, fun k hk1 hk2 => pre1 k hk1 (by omega),
    fun k hk1 hk2 => suf1 k (by omega) hk2, hperm⟩

theorem partLoop_partitions_witness :
    (0 : Int) ≤ 0 ∧ (0 : Int) ≤ 2 ∧ (2 : Int) < (([1, 2, 3] : List Int).length : Int) ∧
    ((2 : Int) + 1 - 0).toNat ≤ 3 ∧ ((2 : Int) + 2 - 0).toNat < 5 ∧
    ∃ a2 nl nh,
      partLoop (geti [1, 2, 3] (Int.tdiv (2 + 0) 2)) 3 5 [1, 2, 3] 0 2 = some (a2, nl, nh)
      ∧ (∀ k, (0 : Int) ≤ k → k ≤ nh → geti a2 k ≤ geti [1, 2, 3] (Int.tdiv (2 + 0) 2))
      ∧ (∀ k, nl ≤ k → k ≤ 2 → geti [1, 2, 3] (Int.tdiv (2 + 0) 2) ≤ geti a2 k)
      ∧ List.Perm (slice a2 0 2) (slice [1, 2, 3] 0 2) :=
  ⟨by decide, by decide, by decide, by decide, by decide,
    partLoop_partitions [1, 2, 3] 0 2 3 5 (by decide) (by decide) (by decide)
      (by decide) (by decide)⟩

/-- C4: `quickSort` terminates for every array and valid range, including
all-equal ranges: with the explicit fuel `sortFuel low high` the run completes
(no infinite loop), and when `low < high` the partition loop produces cursors
with `low + 1 ≤ new_low` and `new_high ≤ high - 1`, so each recursive call
receives a strictly shorter range and the recursion is well-founded. -/
theorem quickSort_terminates (a : List Int) (low high : Int)
    (h1 : 0 ≤ low) (h2 : high < (a.length : Int)) :
    (∃ a2, quickSort (sortFuel low high) a low high = some a2) ∧
    (low < high →
      ∀ sf fl : Nat, (high + 1 - low).toNat ≤ sf → (high + 2 - low).toNat < fl →
      ∃ a1 nl nh,
        partLoop (geti a (Int.tdiv (high + low) 2)) sf fl a low high = some (a1, nl, nh)
        ∧ low + 1 ≤ nl ∧ nh ≤ high - 1) := by
  constructor
  · obtain ⟨a2, heq, _⟩ := quickSort_go (sortFuel low high) a low high rfl h1 h2
      (by unfold sortFuel; omega)
    exact ⟨a2, heq⟩
  · intro hlh sf fl hsf hfl
    have hmid : Int.tdiv (high + low) 2 = (high + low) / 2 :=
      Int.tdiv_eq_ediv (by omega) (by omega)
    obtain ⟨a1, nl, nh, heq, _, _, _, hs1, hs2, _⟩ :=
      partLoop_entry (Int.tdiv (high + low) 2) sf fl rfl h1 (by omega) h2
        (by rw [hmid]; omega) (by rw [hmid]; omega) rfl hsf hfl
    exact ⟨a1, nl, nh, heq, hs1, hs2⟩

theorem quickSort_terminates_witness :
    (0 : Int) ≤ 0 ∧ (3 : Int) < (([7, 7, 7, 7] : List Int).length : Int) ∧
    ((∃ a2, quickSort (sortFuel 0 3) [7, 7, 7, 7] 0 3 = some a2) ∧
     ((0 : Int) < 3 →
      ∀ sf fl : Nat, ((3 : Int) + 1 - 0).toNat ≤ sf → ((3 : Int) + 2 - 0).toNat < fl →
      ∃ a1 nl nh,
        partLoop (geti [7, 7, 7, 7] (Int.tdiv (3 + 0) 2)) sf fl [7, 7, 7, 7] 0 3
          = some (a1, nl, nh)
        ∧ (0 : Int) + 1 ≤ nl ∧ nh ≤ (3 : Int) - 1)) :=
  ⟨by decide, by decide, quickSort_terminates [7, 7, 7, 7] 0 3 (by decide) (by decide)⟩

/-- C5 counterexample: on the array `[1, 2, 3]` with `low = 0`, `high = 2`,
the pivot read at entry is `2` and the partition loop terminates with the
cursor pair `(new_low, new_high) = (2, 0)`, so `new_high` is neither
`new_low - 1` nor `new_low`, refuting the claimed split-point relation. -/
theorem partLoop_split_counterexample :
    geti [1, 2, 3] (Int.tdiv (2 + 0) 2) = 2 ∧
    partLoop 2 3 4 [1, 2, 3] 0 2 = some ([1, 2, 3], 2, 0) ∧
    ¬ ((0 : Int) = 2 - 1 ∨ (0 : Int) = 2) :=
  ⟨by decide, by decide, by decide⟩

/-- C5 (amended): for every array and range with `0 ≤ low ≤ high ≤ n - 1`,
the final cursor pair `(new_low, new_high)` of the partition loop satisfies
`new_high = new_low - 1` or `new_high = new_low - 2`. -/
theorem partLoop_split_amended (a : List Int) (low high : Int) (sf fl : Nat)
    (h1 : 0 ≤ low) (h2 : low ≤ high) (h3 : high < (a.length : Int))
    (hsf : (high + 1 - low).toNat ≤ sf) (hfl : (high + 2 - low).toNat < fl) :
    ∃ a1 nl nh,
      partLoop (geti a (Int.tdiv (high + low) 2)) sf fl a low high = some (a1, nl, nh)
      ∧ (nh = nl - 1 ∨ nh = nl - 2) := by
  have hmid : Int.tdiv (high + low) 2 = (high + low) / 2 :=
    Int.tdiv_eq_ediv (by omega) (by omega)
  obtain ⟨a1, nl, nh, heq, _, _, _, _, _, hs3, hs4, _⟩ :=
    partLoop_entry (Int.tdiv (high + low) 2) sf fl rfl h1 h2 h3
      (by rw [hmid]; omega) (by rw [hmid]; omega) rfl hsf hfl
  exact ⟨a1, nl, nh, heq, by omega⟩

theorem partLoop_split_amended_witness :
    (0 : Int) ≤ 0 ∧ (0 : Int) ≤ 1 ∧ (1 : Int) < (([2, 1] : List Int).length : Int) ∧
    ((1 : Int) + 1 - 0).toNat ≤ 2 ∧ ((1 : Int) + 2 - 0).toNat < 4 ∧
    ∃ a1 nl nh,
      partLoop (geti [2, 1] (Int.tdiv (1 + 0) 2)) 2 4 [2, 1] 0 1 = some (a1, nl, nh)
      ∧ (nh = nl - 1 ∨ nh = nl - 2) :=
  ⟨by decide, by decide, by decide, by decide, by decide,
    partLoop_split_amended [2, 1] 0 1 2 4 (by decide) (by decide) (by decide)
      (by decide) (by decide)⟩

/-- C7: for every array and every range with `low ≥ high` — both the singleton
case `low = high` and the empty case `low > high` — `quickSort` returns
immediately as a no-op: the input array is returned unchanged, without any
array access or recursive call (the guard is the first statement of every
invocation, so it holds at every recursion level). -/
theorem quickSort_trivial_range (a : List Int) (low high : Int) (fuel : Nat)
    (h1 : low ≥ high) (h2 : 1 ≤ fuel) :
    quickSort fuel a low high = some a := by
  obtain ⟨f, rfl⟩ : ∃ f, fuel = f + 1 := ⟨fuel - 1, by omega⟩
  rw [quickSort, if_pos h1]

theorem quickSort_trivial_range_witness :
    ((0 : Int) ≥ 0 ∧ 1 ≤ 1 ∧ quickSort 1 [5] 0 0 = some [5]) ∧
    ((0 : Int) ≥ -1 ∧ 1 ≤ 1 ∧ quickSort 1 [5] 0 (-1) = some [5]) :=
  ⟨⟨by decide, by decide, quickSort_trivial_range [5] 0 0 1 (by decide) (by decide)⟩,
   ⟨by decide, by decide, quickSort_trivial_range [5] 0 (-1) 1 (by decide) (by decide)⟩⟩

/-- C8: `quickSort` mutates only the given range: for every valid call, every
element at an index outside `[low, high]` has the same value after the call as
before, and the list is never resized (no allocation). -/
theorem quickSort_frame (a : List Int) (low high : Int) (fuel : Nat)
    (h1 : 0 ≤ low) (h2 : high < (a.length : Int)) (h3 : (high + 2 - low).toNat < fuel) :
    ∃ a2, quickSort fuel a low high = some a2 ∧ a2.length = a.length ∧
      ∀ k, k < low ∨ high < k → geti a2 k = geti a k := by
  obtain ⟨a2, heq, hlen, hframe, _, _⟩ := quickSort_go fuel a low high rfl h1 h2 h3
  exact ⟨a2, heq, hlen, hframe⟩

theorem quickSort_frame_witness :
    (0 : Int) ≤ 1 ∧ (2 : Int) < (([3, 2, 1] : List Int).length : Int) ∧
    ((2 : Int) + 2 - 1).toNat < 5 ∧
    ∃ a2, quickSort 5 [3, 2, 1] 1 2 = some a2 ∧ a2.length = ([3, 2, 1] : List Int).length ∧
      ∀ k, k < 1 ∨ (2 : Int) < k → geti a2 k = geti [3, 2, 1] k :=
  ⟨by decide, by decide, by decide,
    quickSort_frame [3, 2, 1] 1 2 5 (by decide) (by decide) (by decide)⟩

/-- C9: under the precondition `0 ≤ low` and `high ≤ n - 1`, every array
access performed by `quickSort` is within bounds: the whole run returns `some`
(in this model every out-of-bounds access would surface as `none`), and at
entry of the partition loop the upward scan stops at an index `≤ high` and the
downward scan stops at an index `≥ low`. -/
theorem quickSort_inbounds (a : List Int) (low high : Int)
    (h1 : 0 ≤ low) (h2 : high < (a.length : Int)) :
    (∃ a2, quickSort (sortFuel low high) a low high = some a2) ∧
    (low ≤ high →
      ∀ sf : Nat, (high + 1 - low).toNat ≤ sf →
        (∃ nl, upScan a (geti a (Int.tdiv (high + low) 2)) sf low = some nl ∧
          low ≤ nl ∧ nl ≤ high) ∧
        (∃ nh, downScan a (geti a (Int.tdiv (high + low) 2)) sf high = some nh ∧
          low ≤ nh ∧ nh ≤ high)) := by
  constructor
  · obtain ⟨a2, heq, _⟩ := quickSort_go (sortFuel low high) a low high rfl h1 h2
      (by unfold sortFuel; omega)
    exact ⟨a2, heq⟩
  · intro hlh sf hsf
    have hmid : Int.tdiv (high + low) 2 = (high + low) / 2 :=
      Int.tdiv_eq_ediv (by omega) (by omega)
    have hm1 : low ≤ Int.tdiv (high + low) 2 := by rw [hmid]; omega
    have hm2 : Int.tdiv (high + low) 2 ≤ high := by rw [hmid]; omega
    constructor
    · obtain ⟨nl, hup, hq1, hq2, _, _⟩ :=
        upScan_spec (a := a) (p := geti a (Int.tdiv (high + low) 2))
          sf low (Int.tdiv (high + low) 2) h1 hm1 (by omega) (le_refl _) (by omega)
      exact ⟨nl, hup, hq1, by omega⟩
    · obtain ⟨nh, hdown, hq1, hq2, _, _⟩ :=
        downScan_spec (a := a) (p := geti a (Int.tdiv (high + low) 2))
          sf high (Int.tdiv (high + low) 2) (by omega) hm2 h2 (le_refl _) (by omega)
      exact ⟨nh, hdown, by omega, hq2⟩

theorem quickSort_inbounds_witness :
    (0 : Int) ≤ 0 ∧ (1 : Int) < (([7, 7] : List Int).length : Int) ∧
    ((∃ a2, quickSort (sortFuel 0 1) [7, 7] 0 1 = some a2) ∧
     ((0 : Int) ≤ 1 →
      ∀ sf : Nat, ((1 : Int) + 1 - 0).toNat ≤ sf →
        (∃ nl, upScan [7, 7] (geti [7, 7] (Int.tdiv (1 + 0) 2)) sf 0 = some nl ∧
          (0 : Int) ≤ nl ∧ nl ≤ 1) ∧
        (∃ nh, downScan [7, 7] (geti [7, 7] (Int.tdiv (1 + 0) 2)) sf 1 = some nh ∧
          (0 : Int) ≤ nh ∧ nh ≤ 1))) :=
  ⟨by decide, by decide, quickSort_inbounds [7, 7] 0 1 (by decide) (by decide)⟩

/-- C10: sorting is idempotent on sorted input: if the range `[low, high]` of
the array is already in non-decreasing order, `quickSort` returns the input
array itself, unchanged. -/
theorem quickSort_idempotent (a : List Int) (low high : Int) (fuel : Nat)
    (h1 : 0 ≤ low) (h2 : high < (a.length : Int)) (h3 : (high + 2 - low).toNat < fuel)
    (hsorted : ∀ k, low ≤ k → k < high → geti a k ≤ geti a (k + 1)) :
    quickSort fuel a low high = some a := by
  obtain ⟨a2, heq, hlen, hframe, hperm, hsort⟩ := quickSort_go fuel a low high rfl h1 h2 h3
  have hs1 : List.Sorted (· ≤ ·) (slice a2 low high) :=
    sorted_slice h1 (by omega) hsort
  have hs2 : List.Sorted (· ≤ ·) (slice a low high) := sorted_slice h1 h2 hsorted
  have heqs : slice a2 low high = slice a low high :=
    List.eq_of_perm_of_sorted hperm hs1 hs2
  have ha : a2 = a := eq_of_frame_slice (by omega) h1 h2 hframe heqs
  rw [heq, ha]

theorem quickSort_idempotent_witness :
    (0 : Int) ≤ 0 ∧ (2 : Int) < (([1, 2, 3] : List Int).length : Int) ∧
    ((2 : Int) + 2 - 0).toNat < 5 ∧
    (∀ k, (0 : Int) ≤ k → k < 2 → geti [1, 2, 3] k ≤ geti [1, 2, 3] (k + 1)) ∧
    quickSort 5 [1, 2, 3] 0 2 = some [1, 2, 3] :=
  ⟨by decide, by decide, by decide,
    by intro k hk1 hk2; interval_cases k <;> decide,
    quickSort_idempotent [1, 2, 3] 0 2 5 (by decide) (by decide) (by decide)
      (by intro k hk1 hk2; interval_cases k <;> decide)⟩

end QuicksortOpenMP
